import Mathlib

/-!
Verification of the ts-linqlite lazy sequence-query library (`LinqLite.ts`).

The TypeScript source is shallowly embedded as follows:

* A finite JS sequence (array, or a fully materialised generator output) is a
  `List`.
* JS `number` values are modelled as rationals (`ℚ`); the code's `max`/`min`
  only compare values (`Math.max`/`Math.min`), so for finite inputs this is
  exact.  `Number.MIN_VALUE` (the smallest positive double) is exactly
  `2 ^ (-1074)` and `Number.MAX_VALUE` is exactly `(2 ^ 53 - 1) * 2 ^ 971`.
* A JS value of type `T | undefined`, where the element type `T` may itself
  contain `undefined`, is modelled as `Option α` with `none` standing for
  `undefined`.  Operations whose behaviour hinges on a comparison with
  `undefined` (`first`, `last`, `single`, …) are embedded over element type
  `Option α` so this collapse is visible.
* A `throw` is an `Except LinqError` result.
* A generator object returned by a `function*` is a *stateful* iterator: its
  `[Symbol.iterator]()` returns the object itself, so a second `for..of` loop
  over the same object resumes (and, after exhaustion, immediately finishes).
  The `where` generator object is embedded as an explicit state
  (`WhereGen`), with `whereTraverse` playing the role of one full `for..of`
  drain that returns both the yielded elements and the final generator state.
* Pull-counting variants (`takePulls`, `selectPulls`, `wherePulls`) instrument
  the generator bodies: they record how many elements were pulled from the
  upstream source, resp. how many times the caller-supplied function was
  invoked, when the consumer requests a given number of outputs.  A generator
  body runs only in response to `next()`, so requesting zero outputs runs
  nothing.
-/

namespace LinqLite

/-- Error kinds thrown by the library.  The code throws plain `Error`s with
messages "empty sequence" / "sequence contains no element that satisfies
specified predicate" (the spec's `EmptySequenceError`), "sequence contains
more than one element that satisfies specified predicate"
(`MultipleMatchError`), and "element not existed" (the spec's
`IndexOutOfRangeError`). -/
inductive LinqError : Type where
  | emptySequence : LinqError
  | multipleMatch : LinqError
  | elementNotExisted : LinqError
deriving DecidableEq, Repr

/-- `const defaultPredicate = () => true;` -/
def defaultPredicate {α : Type _} : α → Bool := fun _ => true

/-- `const defaultEqualityComparer = (a, b) => a === b;` (strict equality on
primitive values is plain equality). -/
def defaultEqualityComparer {α : Type _} [BEq α] : α → α → Bool := fun a b => a == b

/-- `contains(source, value, comparer)`: linear scan, `comparer(item, value)`,
short-circuits on the first match. -/
def contains {α : Type _} : List α → α → (α → α → Bool) → Bool
  | [], _, _ => false
  | x :: xs, v, c => if c x v then true else contains xs v c

/-- `count(source, predicate)`: counts the elements satisfying the predicate. -/
def count {α : Type _} : List α → (α → Bool) → Nat
  | [], _ => 0
  | x :: xs, p => (if p x then 1 else 0) + count xs p

/-- Loop body of `distinct`: `iteratedElements` is the growing `seen` array
(the code pushes each yielded element to its end). -/
def distinctAux {α : Type _} (c : α → α → Bool) : List α → List α → List α
  | _, [] => []
  | seen, x :: xs =>
    if contains seen x c then distinctAux c seen xs
    else x :: distinctAux c (seen ++ [x]) xs

/-- `distinct(source, comparer)`: uniqueness filter keeping first occurrences,
scanning the already-yielded list with the comparer. -/
def distinct {α : Type _} (source : List α) (c : α → α → Bool) : List α :=
  distinctAux c [] source

/-- Lookup in the JS object used as a hash set: `iteratedElements[hashValue]`.
The object maps numeric keys to stored elements; later assignments shadow
earlier ones, which the front-of-list insert below mirrors. -/
def hsGet {α : Type _} (m : List (Int × α)) (k : Int) : Option α :=
  (m.find? (fun e => e.1 == k)).map (fun e => e.2)

/-- Loop body of `distinctHash`: the code skips an element iff
`iteratedElements[hashValue] !== undefined`; for element types whose values
are never `undefined` (the integers of claim C8) that is exactly key
presence. -/
def distinctHashAux {α : Type _} (h : α → Int) : List (Int × α) → List α → List α
  | _, [] => []
  | m, x :: xs =>
    match hsGet m (h x) with
    | some _ => distinctHashAux h m xs
    | none => x :: distinctHashAux h ((h x, x) :: m) xs

/-- `distinctHash(source, hash)`: hash-keyed uniqueness filter. -/
def distinctHash {α : Type _} (source : List α) (h : α → Int) : List α :=
  distinctHashAux h [] source

/-- Spec-side description of what `distinct`/`distinctHash` yield (from the
spec's words, for the refinement claim C8): each element of the source is kept
iff it does not already occur in the prefix before it — "each value once in
first-occurrence order". -/
def distinctSpec (l : List Int) : List Int :=
  (l.inits.zip l).filterMap (fun pr => if pr.2 ∈ pr.1 then none else some pr.2)

/-- Loop of `elementAtOrUndefined`: compare `currentIndex === index`, then
`++currentIndex`.  The JS index argument is an arbitrary number, kept as an
`Int`. -/
def elementAtOrUndefinedAux {α : Type _} (index : Int) : Int → List α → Option α
  | _, [] => none
  | cur, x :: xs => if cur == index then some x else elementAtOrUndefinedAux index (cur + 1) xs

/-- `elementAtOrUndefined(source, index)`. -/
def elementAtOrUndefined {α : Type _} (source : List α) (index : Int) : Option α :=
  elementAtOrUndefinedAux index 0 source

/-- `jsFalsyInt v` models JS `!v` for an integral number `v`: truthy unless
zero. -/
def jsFalsyInt (v : Int) : Bool := v == 0

/-- `elementAt(source, index)` over number elements: the code tests
`if (!element)` — a *falsiness* test, not an `=== undefined` test — and throws
`Error("element not existed")`. -/
def elementAt (source : List Int) (index : Int) : Except LinqError Int :=
  match elementAtOrUndefined source index with
  | none => .error .elementNotExisted
  | some v => if jsFalsyInt v then .error .elementNotExisted else .ok v

/-- `firstOrUndefined(source, predicate)` over elements that may themselves be
`undefined` (`none`): returns the first element passing the predicate — which
may be `none` itself — or `undefined` when the scan finishes. -/
def firstOrUndefined {α : Type _} : List (Option α) → (Option α → Bool) → Option α
  | [], _ => none
  | x :: xs, p => if p x then x else firstOrUndefined xs p

/-- `first(source, predicate)`: delegates to `firstOrUndefined` and throws
"empty sequence" iff the result `=== undefined`. -/
def first {α : Type _} (source : List (Option α)) (p : Option α → Bool) :
    Except LinqError (Option α) :=
  match firstOrUndefined source p with
  | none => .error .emptySequence
  | some v => .ok (some v)

/-- `lastOrUndefinedForArray(source, predicate)`: the code walks the array
downward from the last index and returns the first element (from the end)
passing the predicate, i.e. `find?` over the reversed array; the returned
element may itself be `undefined`, which `Option.join` collapses exactly as
the JS return value does. -/
def lastOrUndefinedForArray {α : Type _} (source : List (Option α))
    (p : Option α → Bool) : Option α :=
  (source.reverse.find? p).join

/-- `lastOrUndefined(source, predicate)`: our model sequences are arrays, so
this is the `Array` branch of the code. -/
def lastOrUndefined {α : Type _} (source : List (Option α)) (p : Option α → Bool) :
    Option α :=
  lastOrUndefinedForArray source p

/-- `last(source, predicate)`: throws "empty sequence" iff the
`lastOrUndefined` result `=== undefined`. -/
def last {α : Type _} (source : List (Option α)) (p : Option α → Bool) :
    Except LinqError (Option α) :=
  match lastOrUndefined source p with
  | none => .error .emptySequence
  | some v => .ok (some v)

/-- Loop of `singleOrUndefined`: `result` starts as `undefined`; on a passing
element the code first throws "more than one element" if `result !==
undefined`, else stores the element (storing `undefined` leaves `result`
indistinguishable from "no match so far"). -/
def singleOrUndefinedAux {α : Type _} (p : Option α → Bool) :
    Option α → List (Option α) → Except LinqError (Option α)
  | res, [] => .ok res
  | res, x :: xs =>
    if p x then
      match res with
      | some _ => .error .multipleMatch
      | none => singleOrUndefinedAux p x xs
    else singleOrUndefinedAux p res xs

/-- `singleOrUndefined(source, predicate)`. -/
def singleOrUndefined {α : Type _} (source : List (Option α)) (p : Option α → Bool) :
    Except LinqError (Option α) :=
  singleOrUndefinedAux p none source

/-- `single(source, predicate)`: throws "sequence contains no element that
satisfies specified predicate" iff the `singleOrUndefined` result `===
undefined`; a `MultipleMatchError` from it propagates. -/
def single {α : Type _} (source : List (Option α)) (p : Option α → Bool) :
    Except LinqError (Option α) :=
  match singleOrUndefined source p with
  | .error e => .error e
  | .ok none => .error .emptySequence
  | .ok (some v) => .ok (some v)

/-- `Number.MIN_VALUE`, the smallest positive double: exactly `2 ^ (-1074)`. -/
def NumberMinValue : ℚ := 1 / 2 ^ 1074

/-- `Number.MAX_VALUE`, the largest finite double: exactly
`(2 ^ 53 - 1) * 2 ^ 971`. -/
def NumberMaxValue : ℚ := (2 ^ 53 - 1) * 2 ^ 971

/-- Loop of `max`: `max = Math.max(max, selector(item))` over the source. -/
def maxAux {α : Type _} (sel : α → ℚ) : ℚ → List α → ℚ
  | acc, [] => acc
  | acc, x :: xs => maxAux sel (Max.max acc (sel x)) xs

/-- `max(source, selector)`: running maximum initialised to
`Number.MIN_VALUE`. -/
def max {α : Type _} (source : List α) (sel : α → ℚ) : ℚ :=
  maxAux sel NumberMinValue source

/-- Loop of `min`: `min = Math.min(min, selector(item))` over the source. -/
def minAux {α : Type _} (sel : α → ℚ) : ℚ → List α → ℚ
  | acc, [] => acc
  | acc, x :: xs => minAux sel (Min.min acc (sel x)) xs

/-- `min(source, selector)`: running minimum initialised to
`Number.MAX_VALUE`. -/
def min {α : Type _} (source : List α) (sel : α → ℚ) : ℚ :=
  minAux sel NumberMaxValue source

/-- State of the generator object returned by `function* where(source,
predicate)`: the not-yet-consumed suffix of the upstream source together with
the running element index.  Its `[Symbol.iterator]()` returns the object
itself, so every `for..of` over the same object shares this state. -/
structure WhereGen (α : Type _) where
  rem : List α
  idx : Nat
deriving DecidableEq, Repr

/-- Calling `where(src, p)` allocates the generator in its initial state; the
body has not started running. -/
def whereMake {α : Type _} (src : List α) : WhereGen α := ⟨src, 0⟩

/-- Recursion of `whereTraverse` over the remaining upstream elements. -/
def whereTraverseAux {α : Type _} (p : α → Nat → Bool) : List α → Nat → List α × WhereGen α
  | [], i => ([], ⟨[], i⟩)
  | x :: xs, i =>
    let r := whereTraverseAux p xs (i + 1)
    if p x i then (x :: r.1, r.2) else r

/-- One full `for..of` drain of the `where` generator object: yields every
remaining element passing the predicate and returns the final generator
state (the body runs to completion, leaving `rem = []`). -/
def whereTraverse {α : Type _} (p : α → Nat → Bool) (g : WhereGen α) :
    List α × WhereGen α :=
  whereTraverseAux p g.rem g.idx

/-- The fluent wrapper: holds a reference to exactly one underlying
sequence. -/
structure LinqWrapper (α : Type _) where
  iterable : List α

/-- Wrapper method `count(predicate)`: the code body is
`return count(this.iterable);` — the received predicate is *dropped* and the
free function runs with its default ("always true") predicate. -/
def LinqWrapper.count {α : Type _} (w : LinqWrapper α) (_p : α → Bool) : Nat :=
  LinqLite.count w.iterable defaultPredicate

/-- Wrapper method `distinct(comparer)`: the code body is
`return new LinqWrapper<T>(distinct(this.iterable));` — the received comparer
is *dropped* and the free function runs with the default strict-equality
comparer. -/
def LinqWrapper.distinct {α : Type _} [BEq α] (w : LinqWrapper α) (_c : α → α → Bool) :
    LinqWrapper α :=
  ⟨LinqLite.distinct w.iterable defaultEqualityComparer⟩

/-- Loop of `take(source, count)`: pull an element, then test `index < count`
(yield) or `break`.  The test happens *after* the pull. -/
def takeAux {α : Type _} (count : Int) : Int → List α → List α
  | _, [] => []
  | idx, x :: xs => if idx < count then x :: takeAux count (idx + 1) xs else []

/-- `take(source, count)`. -/
def take {α : Type _} (source : List α) (count : Int) : List α :=
  takeAux count 0 source

/-- Loop of `skip(source, count)`: yield each element whose index satisfies
`index >= count`, always continuing to the end of the source. -/
def skipAux {α : Type _} (count : Int) : Int → List α → List α
  | _, [] => []
  | idx, x :: xs =>
    if count ≤ idx then x :: skipAux count (idx + 1) xs else skipAux count (idx + 1) xs

/-- `skip(source, count)`. -/
def skip {α : Type _} (source : List α) (count : Int) : List α :=
  skipAux count 0 source

/-- Instrumented `take`: running the generator until it finishes (or the
source ends), record the yielded elements and how many elements were pulled
from the upstream source.  Mirrors the loop of `take`: each iteration first
pulls (counted), then either yields (`index < count`) or `break`s. -/
def takePullsAux {α : Type _} (count : Int) : Int → List α → List α × Nat
  | _, [] => ([], 0)
  | idx, x :: xs =>
    if idx < count then
      let r := takePullsAux count (idx + 1) xs
      (x :: r.1, r.2 + 1)
    else ([], 1)

/-- `takePulls source count = (yielded elements, upstream pulls)` for a full
traversal of `take(source, count)`. -/
def takePulls {α : Type _} (source : List α) (count : Int) : List α × Nat :=
  takePullsAux count 0 source

/-- Instrumented `select`: the consumer requests `j` outputs; each granted
request pulls one upstream element and invokes the selector once (the
generator body runs only inside `next()`).  Returns the outputs produced and
the number of selector invocations. -/
def selectPullsAux {α β : Type _} (f : α → Nat → β) : Nat → Nat → List α → List β × Nat
  | _, 0, _ => ([], 0)
  | _, _ + 1, [] => ([], 0)
  | idx, j + 1, x :: xs =>
    let r := selectPullsAux f (idx + 1) j xs
    (f x idx :: r.1, r.2 + 1)

/-- `selectPulls source f j = (outputs, selector invocations)` when the
consumer of `select(source, f)` requests `j` elements. -/
def selectPulls {α β : Type _} (source : List α) (f : α → Nat → β) (j : Nat) :
    List β × Nat :=
  selectPullsAux f 0 j source

/-- Instrumented `where`: the consumer requests `j` outputs; the generator
invokes the predicate on each pulled upstream element (counted) and yields the
passing ones.  Returns the outputs produced and the number of predicate
invocations. -/
def wherePullsAux {α : Type _} (p : α → Nat → Bool) : Nat → Nat → List α → List α × Nat
  | _, 0, _ => ([], 0)
  | _, _ + 1, [] => ([], 0)
  | idx, j + 1, x :: xs =>
    if p x idx then
      let r := wherePullsAux p (idx + 1) j xs
      (x :: r.1, r.2 + 1)
    else
      let r := wherePullsAux p (idx + 1) (j + 1) xs
      (r.1, r.2 + 1)

/-- `wherePulls source p j = (outputs, predicate invocations)` when the
consumer of `where(source, p)` requests `j` elements. -/
def wherePulls {α : Type _} (source : List α) (p : α → Nat → Bool) (j : Nat) :
    List α × Nat :=
  wherePullsAux p 0 j source

/-- C1: refuted on the code.  A `where` stage is a generator object whose
iterator is the object itself, so its traversal state *is* the stage's state:
building `where([1], () => true)` once and draining it twice yields `[1]` the
first time and `[]` the second — not the same sequence both times. -/
theorem where_stage_second_traversal_empty :
    (whereTraverse (fun (_ : Int) (_ : Nat) => true) (whereMake [1])).1 = [1] ∧
      (whereTraverse (fun (_ : Int) (_ : Nat) => true)
        (whereTraverse (fun (_ : Int) (_ : Nat) => true) (whereMake [1])).2).1 = [] := by
  decide

/-- C2: refuted on the code.  The wrapper's `count` ignores its predicate
argument (`return count(this.iterable);`) and its `distinct` ignores its
comparer argument, so `L([1,2]).count(x => x === 1) = 2` while
`count([1,2], x => x === 1) = 1`, and `L([1,2]).distinct((a,b) => true)`
yields `[1,2]` while `distinct([1,2], (a,b) => true)` yields `[1]`. -/
theorem wrapper_count_distinct_drop_arguments :
    (LinqWrapper.mk ([1, 2] : List Int)).count (fun x => x == 1) = 2 ∧
      count ([1, 2] : List Int) (fun x => x == 1) = 1 ∧
      ((LinqWrapper.mk ([1, 2] : List Int)).distinct (fun _ _ => true)).iterable = [1, 2] ∧
      distinct ([1, 2] : List Int) (fun _ _ => true) = [1] := by
  decide

/-- C3: counterexample.  Traversing `take(src, 0)` over the one-element source
`[5]` pulls one element from the source (the loop pulls before testing
`index < count`), contradicting "traversing take(src, 0) pulls zero elements
from src". -/
theorem take_zero_pulls_one_element :
    takePulls ([5] : List Int) 0 = ([], 1) := by
  decide

/-- C4: refuted on the code.  `elementAt` tests its result with `if (!element)`
— a falsiness test — so for `A = [0]` and in-range index `0` (which
`elementAtOrUndefined` resolves to the element `0`) it still throws
"element not existed". -/
theorem elementAt_throws_on_in_range_zero :
    elementAt [0] 0 = .error .elementNotExisted ∧
      elementAtOrUndefined ([0] : List Int) 0 = some 0 :=
  ⟨rfl, rfl⟩

/-- C5: counterexample.  With the one-element source `[undefined]` and the
always-true predicate, a qualifying element exists (the predicate holds on the
element `undefined`), yet `first` raises `EmptySequenceError` and
`firstOrUndefined`/`lastOrUndefined` return the sentinel, indistinguishable
from that present element; `last` raises too. -/
theorem first_last_confuse_undefined_element :
    first ([none] : List (Option Int)) (fun _ => true) = .error .emptySequence ∧
      firstOrUndefined ([none] : List (Option Int)) (fun _ => true) = none ∧
      last ([none] : List (Option Int)) (fun _ => true) = .error .emptySequence ∧
      (fun (_ : Option Int) => true) none = true :=
  ⟨rfl, rfl, rfl, rfl⟩

/-- C6: over an empty sequence, for every selector, `max` returns the
`Number.MIN_VALUE` sentinel and `min` returns the `Number.MAX_VALUE` sentinel;
both functions are total (the code contains no throw), so no error is
raised. -/
theorem max_min_empty_return_sentinels {α : Type _} (sel : α → ℚ) :
    LinqLite.max ([] : List α) sel = NumberMinValue ∧
      LinqLite.min ([] : List α) sel = NumberMaxValue :=
  ⟨rfl, rfl⟩

/-- C7: counterexample.  For the source `[undefined]` and the always-true
predicate exactly one element satisfies the predicate, yet `single` raises
`EmptySequenceError` instead of returning that element (the accumulator
`result` cannot distinguish a stored `undefined` match from "no match"). -/
theorem single_confuses_undefined_match :
    single ([none] : List (Option Int)) (fun _ => true) = .error .emptySequence ∧
      ([none] : List (Option Int)).countP (fun _ => true) = 1 :=
  ⟨rfl, rfl⟩

/-- `takeAux` yields the elements of the source whose index is below the
count. -/
theorem takeAux_eq_take {α : Type _} (c : Int) :
    ∀ (xs : List α) (i : Int), takeAux c i xs = xs.take (c - i).toNat := by
  intro xs
  induction xs with
  | nil => intro i; simp [takeAux]
  | cons x xs ih =>
    intro i
    by_cases hlt : i < c
    · have hc : (c - i).toNat = (c - (i + 1)).toNat + 1 := by omega
      simp [takeAux, hlt, hc, ih]
    · have hc : (c - i).toNat = 0 := by omega
      simp [takeAux, hlt, hc]

/-- `skipAux` drops the elements of the source whose index is below the
count. -/
theorem skipAux_eq_drop {α : Type _} (c : Int) :
    ∀ (xs : List α) (i : Int), skipAux c i xs = xs.drop (c - i).toNat := by
  intro xs
  induction xs with
  | nil => intro i; simp [skipAux]
  | cons x xs ih =>
    intro i
    by_cases hle : c ≤ i
    · have hc : (c - i).toNat = 0 := by omega
      have hc' : (c - (i + 1)).toNat = 0 := by omega
      simp [skipAux, hle, hc, hc', ih]
    · have hc : (c - i).toNat = (c - (i + 1)).toNat + 1 := by omega
      simp [skipAux, hle, hc, ih]

/-- C9: take/skip complement — for every array `A` and integer `0 ≤ n ≤ |A|`,
the elements of `take(A, n)` followed by those of `skip(A, n)` are exactly
`A`. -/
theorem take_skip_complement {α : Type _} (A : List α) (n : Int)
    (h0 : 0 ≤ n) (hn : n ≤ A.length) :
    take A n ++ skip A n = A := by
  have ht := takeAux_eq_take n A 0
  have hs := skipAux_eq_drop n A 0
  simp only [Int.sub_zero] at ht hs
  rw [take, skip, ht, hs, List.take_append_drop]

/-- Witness for C9 at `A = [1,2,3]`, `n = 2`. -/
theorem take_skip_complement_witness :
    take ([1, 2, 3] : List Int) 2 ++ skip ([1, 2, 3] : List Int) 2 = [1, 2, 3] :=
  take_skip_complement [1, 2, 3] 2 (by decide) (by decide)

/-- Pull count and output of a full traversal of `take`: the loop pulls one
element beyond the cut-off (unless the source ends first). -/
theorem takePullsAux_spec {α : Type _} (c : Int) :
    ∀ (xs : List α) (i : Int),
      (takePullsAux c i xs).1 = xs.take (c - i).toNat ∧
        (takePullsAux c i xs).2 = Nat.min ((c - i).toNat + 1) xs.length := by
  intro xs
  induction xs with
  | nil => intro i; simp [takePullsAux]
  | cons x xs ih =>
    intro i
    by_cases hlt : i < c
    · have hc : (c - i).toNat = (c - (i + 1)).toNat + 1 := by omega
      simp [takePullsAux, hlt, hc, (ih (i + 1)).1, (ih (i + 1)).2, Nat.succ_min_succ]
    · have hc : (c - i).toNat = 0 := by omega
      simp [takePullsAux, hlt, hc, Nat.min_def]

/-- C3 (amended): constructing `select`/`where` and pulling zero outputs
invokes the selector/predicate zero times; but a traversal of `take(src, n)`
pulls `min(n + 1, |src|)` elements from the source — one element *beyond* the
`n`-th whenever the source is long enough — while still yielding only the
first `n` elements. -/
theorem construction_lazy_and_take_pulls_min {α β : Type _}
    (src : List α) (f : α → Nat → β) (p : α → Nat → Bool) (n : Int) :
    selectPulls src f 0 = ([], 0) ∧ wherePulls src p 0 = ([], 0) ∧
      (takePulls src n).1 = src.take n.toNat ∧
      (takePulls src n).2 = Nat.min (n.toNat + 1) src.length := by
  refine ⟨?_, ?_, ?_, ?_⟩
  · cases src <;> rfl
  · cases src <;> rfl
  · have h := (takePullsAux_spec n src 0).1
    simpa [takePulls] using h
  · have h := (takePullsAux_spec n src 0).2
    simpa [takePulls] using h

/-- `maxAux` is the left fold of the binary maximum. -/
theorem maxAux_eq_foldl {α : Type _} (sel : α → ℚ) :
    ∀ (l : List α) (acc : ℚ),
      maxAux sel acc l = l.foldl (fun a x => Max.max a (sel x)) acc := by
  intro l
  induction l with
  | nil => intro acc; rfl
  | cons x xs ih => intro acc; simp [maxAux, ih]

/-- `minAux` is the left fold of the binary minimum. -/
theorem minAux_eq_foldl {α : Type _} (sel : α → ℚ) :
    ∀ (l : List α) (acc : ℚ),
      minAux sel acc l = l.foldl (fun a x => Min.min a (sel x)) acc := by
  intro l
  induction l with
  | nil => intro acc; rfl
  | cons x xs ih => intro acc; simp [minAux, ih]

/-- Folding the binary maximum over values no larger than the accumulator
leaves the accumulator unchanged. -/
theorem foldl_max_of_le {α : Type _} (sel : α → ℚ) :
    ∀ (l : List α) (acc : ℚ), (∀ x ∈ l, sel x ≤ acc) →
      l.foldl (fun a x => Max.max a (sel x)) acc = acc := by
  intro l
  induction l with
  | nil => intro acc _; rfl
  | cons x xs ih =>
    intro acc hall
    have hx : Max.max acc (sel x) = acc :=
      max_eq_left (hall x (List.mem_cons_self x xs))
    simp only [List.foldl_cons, hx]
    exact ih acc fun y hy => hall y (List.mem_cons_of_mem x hy)

/-- C10: `max` is the left fold of the binary maximum over the projected
values starting from `Number.MIN_VALUE`, `min` the fold of the binary minimum
starting from `Number.MAX_VALUE`; consequently, on a non-empty source all of
whose projected values are strictly below `Number.MIN_VALUE` (the smallest
positive double — e.g. all values negative), `max` returns `Number.MIN_VALUE`
rather than the largest projected value. -/
theorem max_min_fold_semantics {α : Type _} (src : List α) (sel : α → ℚ) :
    LinqLite.max src sel = src.foldl (fun acc x => Max.max acc (sel x)) NumberMinValue ∧
      LinqLite.min src sel = src.foldl (fun acc x => Min.min acc (sel x)) NumberMaxValue ∧
      (src ≠ [] → (∀ x ∈ src, sel x < NumberMinValue) →
        LinqLite.max src sel = NumberMinValue) := by
  refine ⟨maxAux_eq_foldl sel src NumberMinValue, minAux_eq_foldl sel src NumberMaxValue, ?_⟩
  intro _ hall
  rw [LinqLite.max, maxAux_eq_foldl]
  exact foldl_max_of_le sel src NumberMinValue fun x hx => le_of_lt (hall x hx)

/-- Witness for C10 at the all-negative source `[-1]` with the identity
selector: `max` returns the tiny positive sentinel `2 ^ (-1074)`. -/
theorem max_min_fold_semantics_witness :
    LinqLite.max [(-1 : ℚ)] id = NumberMinValue :=
  (max_min_fold_semantics [(-1 : ℚ)] id).2.2 (by simp)
    (by
      intro x hx
      rw [List.mem_singleton] at hx
      subst hx
      norm_num [NumberMinValue])

/-- `firstOrUndefined` is `find?` followed by the JS collapse of
`T | undefined`. -/
theorem firstOrUndefined_eq_join_find {α : Type _} :
    ∀ (src : List (Option α)) (p : Option α → Bool),
      firstOrUndefined src p = (src.find? p).join := by
  intro src p
  induction src with
  | nil => rfl
  | cons x xs ih =>
    by_cases hx : p x
    · simp [firstOrUndefined, List.find?_cons, hx]
    · simp [firstOrUndefined, List.find?_cons, hx, ih]

/-- C5 (amended): for sources none of whose elements are themselves the
`undefined` sentinel, `first` returns the first element satisfying the
predicate when one exists and raises `EmptySequenceError` exactly when none
does, `firstOrUndefined` returns the sentinel exactly in that no-match case,
and symmetrically for `last`/`lastOrUndefined` (first match of the reversed
array).  When an element may itself be `undefined` this fails (see the
counterexample). -/
theorem first_last_correct_without_undefined {α : Type _}
    (src : List (Option α)) (p : Option α → Bool) (h : (none : Option α) ∉ src) :
    (∀ x, src.find? p = some x → first src p = .ok x ∧ firstOrUndefined src p = x) ∧
      (src.find? p = none → first src p = .error .emptySequence ∧
        firstOrUndefined src p = none) ∧
      (∀ x, src.reverse.find? p = some x → last src p = .ok x ∧
        lastOrUndefined src p = x) ∧
      (src.reverse.find? p = none → last src p = .error .emptySequence ∧
        lastOrUndefined src p = none) := by
  refine ⟨?_, ?_, ?_, ?_⟩
  · intro x hx
    obtain ⟨v, rfl⟩ : ∃ v, x = some v := by
      rcases x with _ | v
      · exact absurd (List.mem_of_find?_eq_some hx) h
      · exact ⟨v, rfl⟩
    have hf : firstOrUndefined src p = some v := by
      rw [firstOrUndefined_eq_join_find, hx]; rfl
    exact ⟨by rw [first, hf], hf⟩
  · intro hx
    have hf : firstOrUndefined src p = none := by
      rw [firstOrUndefined_eq_join_find, hx]; rfl
    exact ⟨by rw [first, hf], hf⟩
  · intro x hx
    obtain ⟨v, rfl⟩ : ∃ v, x = some v := by
      rcases x with _ | v
      · exact absurd (List.mem_reverse.mp (List.mem_of_find?_eq_some hx)) h
      · exact ⟨v, rfl⟩
    have hf : lastOrUndefined src p = some v := by
      rw [lastOrUndefined, lastOrUndefinedForArray, hx]; rfl
    exact ⟨by rw [last, hf], hf⟩
  · intro hx
    have hf : lastOrUndefined src p = none := by
      rw [lastOrUndefined, lastOrUndefinedForArray, hx]; rfl
    exact ⟨by rw [last, hf], hf⟩

/-- Witness for the amended C5 at the `undefined`-free source `[some 1]`. -/
theorem first_last_correct_without_undefined_witness :
    first ([some 1] : List (Option Int)) (fun _ => true) = .ok (some 1) := by
  have H := first_last_correct_without_undefined ([some 1] : List (Option Int))
    (fun _ => true) (by decide)
  exact (H.1 (some 1) rfl).1

/-- Behaviour of the `singleOrUndefined` accumulator loop on sources without
`undefined` elements, for every starting accumulator state. -/
theorem singleOrUndefinedAux_spec {α : Type _} (p : Option α → Bool) :
    ∀ (src : List (Option α)), (none : Option α) ∉ src →
      ((src.countP p = 0 → ∀ res, singleOrUndefinedAux p res src = .ok res) ∧
        (∀ v, 1 ≤ src.countP p →
          singleOrUndefinedAux p (some v) src = .error .multipleMatch) ∧
        (∀ x, src.countP p = 1 → src.find? p = some x →
          singleOrUndefinedAux p none src = .ok x) ∧
        (2 ≤ src.countP p →
          singleOrUndefinedAux p none src = .error .multipleMatch)) := by
  intro src
  induction src with
  | nil =>
    intro _
    refine ⟨fun _ res => rfl, ?_, ?_, ?_⟩ <;> simp [List.countP_nil]
  | cons y ys ih =>
    intro h
    have hyne : y ≠ none := fun he => h (he ▸ List.mem_cons_self y ys)
    have hys : (none : Option α) ∉ ys := fun hm => h (List.mem_cons_of_mem y hm)
    obtain ⟨ihA, ihB, ihC, ihD⟩ := ih hys
    by_cases hp : p y
    · refine ⟨?_, ?_, ?_, ?_⟩
      · intro hc
        rw [List.countP_cons, if_pos hp] at hc
        omega
      · intro v _
        simp [singleOrUndefinedAux, hp]
      · intro x hc hf
        rw [List.countP_cons, if_pos hp] at hc
        have hc0 : ys.countP p = 0 := by omega
        have hx : x = y := by
          rw [show List.find? p (y :: ys) = some y from by simp [List.find?_cons, hp]] at hf
          exact (Option.some.inj hf).symm
        subst hx
        simp only [singleOrUndefinedAux, hp, if_true]
        exact ihA hc0 x
      · intro hc
        rw [List.countP_cons, if_pos hp] at hc
        have hc1 : 1 ≤ ys.countP p := by omega
        obtain ⟨v, rfl⟩ : ∃ v, y = some v := by
          rcases y with _ | v
          · exact absurd rfl hyne
          · exact ⟨v, rfl⟩
        simp only [singleOrUndefinedAux, hp, if_true]
        exact ihB v hc1
    · have hcount : (y :: ys).countP p = ys.countP p := by
        rw [List.countP_cons, if_neg hp, Nat.add_zero]
      refine ⟨?_, ?_, ?_, ?_⟩
      · intro hc res
        rw [hcount] at hc
        simp only [singleOrUndefinedAux, hp, if_false]
        exact ihA hc res
      · intro v hc
        rw [hcount] at hc
        simp only [singleOrUndefinedAux, hp, if_false]
        exact ihB v hc
      · intro x hc hf
        rw [hcount] at hc
        rw [show List.find? p (y :: ys) = List.find? p ys from by
          simp [List.find?_cons, hp]] at hf
        simp only [singleOrUndefinedAux, hp, if_false]
        exact ihC x hc hf
      · intro hc
        rw [hcount] at hc
        simp only [singleOrUndefinedAux, hp, if_false]
        exact ihD hc

/-- C7 (amended): for sources none of whose elements are themselves the
`undefined` sentinel, `single` returns the unique match when exactly one
element satisfies the predicate, raises `EmptySequenceError` on zero matches
and `MultipleMatchError` on two or more; `singleOrUndefined` returns the
sentinel on zero matches but still raises `MultipleMatchError` on two or
more.  When matching elements may be `undefined` this fails (see the
counterexample). -/
theorem single_correct_without_undefined {α : Type _}
    (src : List (Option α)) (p : Option α → Bool) (h : (none : Option α) ∉ src) :
    (src.countP p = 0 → single src p = .error .emptySequence ∧
        singleOrUndefined src p = .ok none) ∧
      (∀ x, src.countP p = 1 → src.find? p = some x →
        single src p = .ok x ∧ singleOrUndefined src p = .ok x) ∧
      (2 ≤ src.countP p → single src p = .error .multipleMatch ∧
        singleOrUndefined src p = .error .multipleMatch) := by
  obtain ⟨hA, _, hC, hD⟩ := singleOrUndefinedAux_spec p src h
  refine ⟨?_, ?_, ?_⟩
  · intro hc
    have hs : singleOrUndefined src p = .ok none := hA hc none
    exact ⟨by rw [single, hs], hs⟩
  · intro x hc hf
    have hs : singleOrUndefined src p = .ok x := hC x hc hf
    obtain ⟨v, rfl⟩ : ∃ v, x = some v := by
      rcases x with _ | v
      · exact absurd (List.mem_of_find?_eq_some hf) h
      · exact ⟨v, rfl⟩
    exact ⟨by rw [single, hs], hs⟩
  · intro hc
    have hs : singleOrUndefined src p = .error .multipleMatch := hD hc
    exact ⟨by rw [single, hs], hs⟩

/-- Witness for the amended C7 at `[some 1, some 2]` with predicate
`x === 2`. -/
theorem single_correct_without_undefined_witness :
    single ([some 1, some 2] : List (Option Int)) (fun x => x == some 2) = .ok (some 2) := by
  have H := single_correct_without_undefined ([some 1, some 2] : List (Option Int))
    (fun x => x == some 2) (by decide)
  exact (H.2.1 (some 2) (by decide) (by decide)).1

/-- The comparer-based scan with the default strict-equality comparer is list
membership. -/
theorem contains_iff_mem (l : List Int) (v : Int) :
    contains l v defaultEqualityComparer = true ↔ v ∈ l := by
  induction l with
  | nil => simp [contains]
  | cons y ys ih =>
    by_cases h : y = v
    · simp [contains, defaultEqualityComparer, h, List.mem_cons]
    · have hb : (y == v) = false := beq_eq_false_iff_ne.mpr h
      simp [contains, defaultEqualityComparer, hb, ih, List.mem_cons, Ne.symm h]

/-- The comparer-based `distinct` loop and the hash-based `distinctHash` loop
agree whenever the hash is compatible with strict equality
(`hash a = hash b ↔ a = b`) and the seen-list and the hash-set record the same
elements. -/
theorem distinctAux_eq_distinctHashAux (h : Int → Int)
    (hinj : ∀ a b : Int, h a = h b ↔ a = b) :
    ∀ (xs seen : List Int) (m : List (Int × Int)),
      (∀ y : Int, y ∈ seen ↔ (hsGet m (h y)).isSome = true) →
      distinctAux defaultEqualityComparer seen xs = distinctHashAux h m xs := by
  intro xs
  induction xs with
  | nil => intro seen m _; rfl
  | cons x xs ih =>
    intro seen m hinv
    by_cases hx : x ∈ seen
    · have hct : contains seen x defaultEqualityComparer = true :=
        (contains_iff_mem _ _).mpr hx
      obtain ⟨v, hv⟩ := Option.isSome_iff_exists.mp ((hinv x).mp hx)
      simp only [distinctAux, hct, if_true, distinctHashAux, hv]
      exact ih seen m hinv
    · have hct : contains seen x defaultEqualityComparer = false :=
        Bool.eq_false_iff.mpr fun hc => hx ((contains_iff_mem _ _).mp hc)
      have hnone : hsGet m (h x) = none := by
        rcases ho : hsGet m (h x) with _ | v
        · rfl
        · exact absurd ((hinv x).mpr (by rw [ho]; rfl)) hx
      simp only [distinctAux, hct, Bool.false_eq_true, if_false, distinctHashAux, hnone]
      congr 1
      apply ih
      intro y
      have hg : hsGet ((h x, x) :: m) (h y)
          = if h x = h y then some x else hsGet m (h y) := by
        by_cases hh : h x = h y <;> simp [hsGet, List.find?_cons, hh]
      by_cases hh : h x = h y
      · have heq : y = x := ((hinj x y).mp hh).symm
        rw [hg, if_pos hh]
        simp [heq, List.mem_append]
      · have hne : y ≠ x := fun he => hh ((hinj x y).mpr he.symm)
        rw [hg, if_neg hh]
        simp [List.mem_append, List.mem_singleton, hne, hinv y]

/-- The `distinct` loop keeps exactly the elements that occur neither in the
seen list nor earlier in the source — "each value once, in first-occurrence
order" — stated for any pair of membership-equivalent seen lists. -/
theorem distinctAux_first_occurrence :
    ∀ (xs seen s2 : List Int), (∀ y : Int, y ∈ seen ↔ y ∈ s2) →
      distinctAux defaultEqualityComparer seen xs
        = (xs.inits.zip xs).filterMap
            (fun pr => if pr.2 ∈ s2 ++ pr.1 then none else some pr.2) := by
  intro xs
  induction xs with
  | nil => intro seen s2 _; rfl
  | cons x xs ih =>
    intro seen s2 hinv
    rw [List.inits_cons, List.zip_cons_cons, List.zip_map_left, List.filterMap_cons,
      List.filterMap_map]
    have hfun : ((fun pr : List Int × Int =>
          if pr.2 ∈ s2 ++ pr.1 then none else some pr.2) ∘
            Prod.map (fun t => x :: t) id)
        = fun pr : List Int × Int =>
            if pr.2 ∈ (s2 ++ [x]) ++ pr.1 then none else some pr.2 := by
      funext pr
      rcases pr with ⟨pre, y⟩
      simp [Function.comp, Prod.map, List.append_assoc]
    rw [hfun]
    by_cases hx : x ∈ s2
    · have hct : contains seen x defaultEqualityComparer = true :=
        (contains_iff_mem _ _).mpr ((hinv x).mpr hx)
      have hcond : x ∈ s2 ++ ([] : List Int) := by simpa using hx
      simp only [distinctAux, hct, if_true, hcond]
      exact ih seen (s2 ++ [x]) fun y => by
        rw [hinv y, List.mem_append, List.mem_singleton]
        exact ⟨Or.inl, fun hor => hor.elim id fun he => he ▸ hx⟩
    · have hct : contains seen x defaultEqualityComparer = false :=
        Bool.eq_false_iff.mpr fun hc => hx ((hinv x).mp ((contains_iff_mem _ _).mp hc))
      have hcond : x ∉ s2 ++ ([] : List Int) := by simpa using hx
      simp only [distinctAux, hct, Bool.false_eq_true, if_false, hcond]
      congr 1
      exact ih (seen ++ [x]) (s2 ++ [x]) fun y => by
        rw [List.mem_append, List.mem_append, hinv y]

/-- C8: for every integer array and every hash compatible with strict
equality (`hash a = hash b ↔ a = b`, in particular any injective hash),
`distinct` with the default comparer and `distinctHash` yield the same array;
and that array keeps exactly the first occurrence of each value, in order
(the `distinctSpec` description from the spec's words). -/
theorem distinct_eq_distinctHash_of_compatible_hash (A : List Int) (h : Int → Int)
    (hinj : ∀ a b : Int, h a = h b ↔ a = b) :
    distinct A defaultEqualityComparer = distinctHash A h ∧
      distinct A defaultEqualityComparer = distinctSpec A := by
  constructor
  · exact distinctAux_eq_distinctHashAux h hinj A [] [] fun y => by simp [hsGet]
  · rw [distinct, distinctAux_first_occurrence A [] [] fun y => Iff.rfl]
    simp only [distinctSpec, List.nil_append]

/-- Witness for C8 at `A = [1,2,1]` with the identity hash. -/
theorem distinct_eq_distinctHash_witness :
    distinct ([1, 2, 1] : List Int) defaultEqualityComparer = [1, 2] ∧
      distinctHash ([1, 2, 1] : List Int) (fun a => a) = [1, 2] := by
  have H := distinct_eq_distinctHash_of_compatible_hash [1, 2, 1] (fun a => a)
    (fun a b => Iff.rfl)
  refine ⟨by decide, ?_⟩
  rw [← H.1]
  decide

end LinqLite
